import Mathlib

/-!
Shallow embedding of the workflow-graph validation core of
`register_workflow.py`: the action-reference parser (`extract_rank`),
the adjacency/rank builder (`build_adjacency_graph`), the recursive
cycle detector (`is_cyclic`), the predecessor map
(`predecessors_list`) and the validation entry point (`check_dag`).

Strings are Lean `String`s; the character-level operations of the
source (`str.split` on a one-character separator, `str.endswith`,
slicing) are modelled on `String.toList`.  Python `dict`s are
insertion-ordered association lists, `defaultdict(list)` accesses are
association-list lookups defaulting to `[]`, and Python `set`s are
lists used only through membership.  Each `sys.exit(1)` site is a
distinct constructor of `Err`, including the two undocumented
exception exits (`ValueError` from `int()`, `KeyError` from a missing
rank lookup).
-/

/-- Terminal outcomes of a validation run: the five documented error
kinds plus the two uncaught Python exceptions the code can raise, and
a marker for exhaustion of the embedding's recursion fuel (never
produced by `check_dag`, see `is_cyclic_total`). -/
inductive Err where
  | invalidEntryPoint : Err
  | ambiguousRankedPredecessor : Err
  | noRoot : Err
  | cyclicGraph : String → String → Err
  | unreachableAction : String → Err
  | valueError : Err
  | keyError : String → Err
  | fuelExhausted : Err
deriving DecidableEq, Repr

/-- Characters stripped by Python's `int()` before parsing. -/
def isPySpace (c : Char) : Bool :=
  c = ' ' || c = '\t' || c = '\n' || c = '\x0d' || c = '\x0b' || c = '\x0c'

/-- Digit run of a Python integer literal after the first digit:
further digits, with single underscores allowed between digits. -/
def pyDigitsRest (acc : Nat) : List Char → Option Nat
  | [] => some acc
  | '_' :: c :: cs =>
      if c.isDigit then pyDigitsRest (acc * 10 + (c.toNat - 48)) cs else none
  | ['_'] => none
  | c :: cs =>
      if c.isDigit then pyDigitsRest (acc * 10 + (c.toNat - 48)) cs else none

/-- Digit run of a Python integer literal: at least one digit, then
`pyDigitsRest`. -/
def pyDigitsStart : List Char → Option Nat
  | [] => none
  | c :: cs => if c.isDigit then pyDigitsRest (c.toNat - 48) cs else none

/-- Model of Python's `int(str)` (base 10): strip whitespace, optional
sign, digits with underscore separators; `none` models the
`ValueError` raised on any other content. -/
def pyInt (s : String) : Option Int :=
  let cs := ((s.toList.dropWhile isPySpace).reverse.dropWhile isPySpace).reverse
  match cs with
  | '+' :: rest => (pyDigitsStart rest).map Int.ofNat
  | '-' :: rest => (pyDigitsStart rest).map (fun n => -(n : Int))
  | rest => (pyDigitsStart rest).map Int.ofNat

/-- Model of Python `str.split(sep)` for a one-character separator:
always returns a non-empty list of (possibly empty) chunks. -/
def pySplitChar (sep : Char) : List Char → List (List Char)
  | [] => [[]]
  | c :: rest =>
      if c = sep then [] :: pySplitChar sep rest
      else
        match pySplitChar sep rest with
        | g :: gs => (c :: g) :: gs
        | [] => [[c]]

/-- Model of `func.split(".")[0]` from line 194 of the source: the
part of a name before its first dot (the whole name if it has none). -/
def firstDotComponent (s : String) : String :=
  String.mk ((pySplitChar '.' s.toList).headD [])

/-- Embeds `extract_rank` (lines 40-54): split on `"("`; anything but
exactly two parts with the second ending in `")"` returns the whole
string at rank 1; otherwise the text inside the parentheses goes
through `int()`, whose failure is the uncaught `ValueError`. -/
def extract_rank (str_input : String) : Except Err (String × Int) :=
  match pySplitChar '(' str_input.toList with
  | [action_name, p1] =>
      if p1.getLast? = some ')' then
        match pyInt (String.mk p1.dropLast) with
        | some rank => Except.ok (String.mk action_name, rank)
        | none => Except.error Err.valueError
      else Except.ok (str_input, 1)
  | _ => Except.ok (str_input, 1)

/-- Association-list lookup, the model of a Python `dict` access. -/
def lookupStr {α : Type} : List (String × α) → String → Option α
  | [], _ => none
  | (k, v) :: rest, key => if k = key then some v else lookupStr rest key

/-- Model of `adj_graph[curr]` on the `defaultdict(list)`: a missing
key reads as `[]`.  (The Python access also inserts the empty list
into the dict; the only later observer, `predecessors_list`, iterates
pairs and gains nothing from empty values, so the pure lookup is
observationally equivalent.) -/
def adjLookup (adj : List (String × List String)) (k : String) : List String :=
  (lookupStr adj k).getD []

/-- Model of `d[k].append(v)` on a `defaultdict(list)`: append to the
existing entry, or create the key at the end of insertion order. -/
def addEdge (g : List (String × List String)) (k v : String) :
    List (String × List String) :=
  match g with
  | [] => [(k, [v])]
  | (k0, vs) :: rest =>
      if k0 = k then (k0, vs ++ [v]) :: rest else (k0, vs) :: addEdge rest k v

/-- Model of `d[k] = v` on a `dict`: overwrite in place, or create the
key at the end of insertion order. -/
def setRank (r : List (String × Int)) (k : String) (v : Int) :
    List (String × Int) :=
  match r with
  | [] => [(k, v)]
  | (k0, v0) :: rest =>
      if k0 = k then (k0, v) :: rest else (k0, v0) :: setRank rest k v

/-- Edge relation of the adjacency structure. -/
def isEdge (adj : List (String × List String)) (a b : String) : Prop :=
  b ∈ adjLookup adj a

instance (adj : List (String × List String)) (a b : String) :
    Decidable (isEdge adj a b) := by
  unfold isEdge; infer_instance

/-- Reachability: the reflexive-transitive closure of `isEdge`. -/
def Reach (adj : List (String × List String)) : String → String → Prop :=
  Relation.ReflTransGen (fun a b => isEdge adj a b)

/-- One element of an `InvokeNext` list: a plain successor reference
string, or a conditional-branch dict from branch label to a list of
successor reference strings (lines 124-129 iterate its values). -/
inductive InvokeEntry where
  | str : String → InvokeEntry
  | branchDict : List (String × List String) → InvokeEntry
deriving DecidableEq, Repr

/-- The raw `InvokeNext` field: a bare string or a list of entries
(lines 110-111 wrap a bare string into a singleton list). -/
inductive InvokeNextVal where
  | str : String → InvokeNextVal
  | list : List InvokeEntry → InvokeNextVal
deriving DecidableEq, Repr

/-- Lines 110-111: normalise `InvokeNext` to the list that is
iterated. -/
def effectiveEntries : InvokeNextVal → List InvokeEntry
  | InvokeNextVal.str s => [InvokeEntry.str s]
  | InvokeNextVal.list l => l

/-- State threaded through `build_adjacency_graph`: the adjacency
dict and the rank dict. -/
structure BuildSt where
  adj : List (String × List String)
  ranks : List (String × Int)
deriving DecidableEq, Repr

/-- Embeds the inner `process_action` (lines 114-122): parse the
reference; a base name already ranked above 1 aborts with
`AmbiguousRankedPredecessor`; otherwise record the edge and overwrite
the rank. -/
def process_action (func : String) (st : BuildSt) (action : String) :
    Except Err BuildSt :=
  match extract_rank action with
  | Except.error e => Except.error e
  | Except.ok (action_name, action_rank) =>
      match lookupStr st.ranks action_name with
      | some r =>
          if r > 1 then Except.error Err.ambiguousRankedPredecessor
          else Except.ok ⟨addEdge st.adj func action_name,
                          setRank st.ranks action_name action_rank⟩
      | none => Except.ok ⟨addEdge st.adj func action_name,
                           setRank st.ranks action_name action_rank⟩

/-- Line 126-127: process the actions of one conditional branch in
order. -/
def processActionList (func : String) : BuildSt → List String → Except Err BuildSt
  | st, [] => Except.ok st
  | st, a :: rest =>
      match process_action func st a with
      | Except.error e => Except.error e
      | Except.ok st2 => processActionList func st2 rest

/-- Line 125: iterate the values of a conditional-branch dict. -/
def processBranches (func : String) :
    BuildSt → List (String × List String) → Except Err BuildSt
  | st, [] => Except.ok st
  | st, (_, branch) :: rest =>
      match processActionList func st branch with
      | Except.error e => Except.error e
      | Except.ok st2 => processBranches func st2 rest

/-- Lines 124-129: one entry of the normalised `InvokeNext` list. -/
def processInvokeEntry (func : String) (st : BuildSt) :
    InvokeEntry → Except Err BuildSt
  | InvokeEntry.str s => process_action func st s
  | InvokeEntry.branchDict branches => processBranches func st branches

/-- Line 112: iterate the normalised `InvokeNext` list of one action. -/
def processEntryList (func : String) : BuildSt → List InvokeEntry → Except Err BuildSt
  | st, [] => Except.ok st
  | st, e :: rest =>
      match processInvokeEntry func st e with
      | Except.error e2 => Except.error e2
      | Except.ok st2 => processEntryList func st2 rest

/-- Lines 108-129: iterate the actions of `ActionList` in declaration
order. -/
def buildActions : BuildSt → List (String × InvokeNextVal) → Except Err BuildSt
  | st, [] => Except.ok st
  | st, (func, inv) :: rest =>
      match processEntryList func st (effectiveEntries inv) with
      | Except.error e => Except.error e
      | Except.ok st2 => buildActions st2 rest

/-- Lines 131-133: every key of the adjacency dict that received no
rank gets rank 0. -/
def assignDefaults : List (String × Int) → List String → List (String × Int)
  | ranks, [] => ranks
  | ranks, f :: rest =>
      match lookupStr ranks f with
      | some _ => assignDefaults ranks rest
      | none => assignDefaults (setRank ranks f 0) rest

/-- Embeds `build_adjacency_graph` (lines 93-135). -/
def build_adjacency_graph (actionList : List (String × InvokeNextVal)) :
    Except Err BuildSt :=
  match buildActions ⟨[], []⟩ actionList with
  | Except.error e => Except.error e
  | Except.ok st => Except.ok ⟨st.adj, assignDefaults st.ranks (st.adj.map Prod.fst)⟩

/-- Embeds `predecessors_list` (lines 137-147): invert the adjacency
dict, preserving both iteration orders. -/
def predecessors_list (adj : List (String × List String)) :
    List (String × List String) :=
  adj.foldl (fun pre p => p.2.foldl (fun pre2 func2 => addEdge pre2 func2 p.1) pre) []

/-- Model of Python `set.add` on the visited set. -/
def setAdd (x : String) (s : List String) : List String :=
  if x ∈ s then s else x :: s

/-- The `for child in adj_graph[curr]` loop of `is_cyclic` (lines
80-86), threading the mutable visited set and stack; `rec` is the
recursive call into `is_cyclic` for the unvisited-child case.  A
child on the stack — directly, or via a `True` return of the
recursive call — is the `CyclicGraph` exit reporting
`(curr, child)`. -/
def childLoop
    (rec : String → List String → List String →
      Option (Except (String × String) (Bool × List String × List String)))
    (curr : String) :
    List String → List String → List String →
    Option (Except (String × String) (List String × List String))
  | [], visited, stack => some (Except.ok (visited, stack))
  | child :: rest, visited, stack =>
      if child ∈ visited then
        if child ∈ stack then some (Except.error (curr, child))
        else childLoop rec curr rest visited stack
      else
        match rec child visited stack with
        | none => none
        | some (Except.error e) => some (Except.error e)
        | some (Except.ok (b, v2, s2)) =>
            if b then some (Except.error (curr, child))
            else if child ∈ s2 then some (Except.error (curr, child))
            else childLoop rec curr rest v2 s2

/-- Embeds `is_cyclic` (lines 56-91).  `fuel` bounds the recursion
depth of the embedding only (see `is_cyclic_total`); the Python
function recurses freely.  Returns `none` on fuel exhaustion, the
pair of node names of the first offending edge on the two
`sys.exit(1)` sites, and otherwise the Python return value together
with the final visited set and stack. -/
def is_cyclic (adj : List (String × List String)) :
    Nat → String → List String → List String →
    Option (Except (String × String) (Bool × List String × List String))
  | 0, _, _, _ => none
  | fuel + 1, curr, visited, stack =>
      if curr ∈ stack then some (Except.ok (true, visited, stack))
      else
        match childLoop (is_cyclic adj fuel) curr (adjLookup adj curr)
            (setAdd curr visited) (stack ++ [curr]) with
        | none => none
        | some (Except.error e) => some (Except.error e)
        | some (Except.ok (v2, s2)) => some (Except.ok (false, v2, s2.dropLast))

/-- Node names occurring anywhere in the adjacency dict. -/
def adjNodes (adj : List (String × List String)) : List String :=
  adj.map Prod.fst ++ (adj.map Prod.snd).flatten

/-- Recursion-depth budget handed to `is_cyclic` by the embedding of
`check_dag`: more than the number of node names, hence never
exhausted (`is_cyclic_total`). -/
def dfsFuel (adj : List (String × List String)) : Nat :=
  (adjNodes adj).length + 2

/-- Embeds the root scan of `check_dag` (lines 172-186): the first
action in declaration order whose rank is 0; a missing rank entry is
the uncaught `KeyError`, and exhausting the list without a rank-0
action is the `NoRoot` exit. -/
def findRoot (ranks : List (String × Int)) : List String → Except Err String
  | [] => Except.error Err.noRoot
  | f :: rest =>
      match lookupStr ranks f with
      | none => Except.error (Err.keyError f)
      | some r => if r = 0 then Except.ok f else findRoot ranks rest

/-- Embeds the reachability check of `check_dag` (lines 193-196): the
part of each declared name before its first dot must have been
visited. -/
def reachLoop (visited : List String) : List String → Except Err Unit
  | [] => Except.ok ()
  | f :: rest =>
      if firstDotComponent f ∈ visited then reachLoop visited rest
      else Except.error (Err.unreachableAction f)

/-- Model of Python `range(lo, hi)`. -/
def pyRange (lo hi : Int) : List Int :=
  (List.range (hi - lo).toNat).map (fun i => lo + Int.ofNat i)

/-- Embeds the rank expansion of `check_dag` (lines 202-208): a
predecessor whose rank exceeds 1 becomes `p.1 ... p.r`; every other
predecessor passes through unchanged. -/
def expandPre (ranks : List (String × Int)) : List String → List String
  | [] => []
  | p :: rest =>
      match lookupStr ranks p with
      | some r =>
          if r > 1 then
            (pyRange 1 (r + 1)).map (fun i => p ++ "." ++ toString i)
              ++ expandPre ranks rest
          else p :: expandPre ranks rest
      | none => p :: expandPre ranks rest

/-- The workflow definition as consumed by `check_dag`: the ordered
`ActionList` (name to `InvokeNext`) and the target `FunctionInvoke`. -/
structure Workflow where
  actionList : List (String × InvokeNextVal)
  functionInvoke : String
deriving DecidableEq, Repr

/-- Embeds `check_dag` (lines 149-209): entry-point check, graph
build, root scan, cycle detection, reachability check, predecessor
resolution with rank expansion. -/
def check_dag (wf : Workflow) : Except Err (List String) :=
  if wf.functionInvoke ∈ wf.actionList.map Prod.fst then
    match build_adjacency_graph wf.actionList with
    | Except.error e => Except.error e
    | Except.ok st =>
        match findRoot st.ranks (wf.actionList.map Prod.fst) with
        | Except.error e => Except.error e
        | Except.ok first_func =>
            match is_cyclic st.adj (dfsFuel st.adj) first_func [] [] with
            | none => Except.error Err.fuelExhausted
            | some (Except.error (a, b)) => Except.error (Err.cyclicGraph a b)
            | some (Except.ok (_, visited, _)) =>
                match reachLoop visited (wf.actionList.map Prod.fst) with
                | Except.error e => Except.error e
                | Except.ok _ =>
                    Except.ok (expandPre st.ranks
                      (adjLookup (predecessors_list st.adj) wf.functionInvoke))
  else Except.error Err.invalidEntryPoint

/-! The successor of any recorded edge always carries a rank entry:
the invariant that protects the root scan from `KeyError` on
reachable graphs. -/

/-- Every successor recorded in the adjacency dict has a rank entry. -/
def RanksCover (st : BuildSt) : Prop :=
  ∀ a b, isEdge st.adj a b → ∃ v, lookupStr st.ranks b = some v

/-- First declared name whose pre-dot component is unvisited: the
action the reachability check reports. -/
def findUnvisited (visited : List String) : List String → Option String
  | [] => none
  | f :: rest =>
      if firstDotComponent f ∈ visited then findUnvisited visited rest
      else some f

/-! Correctness of the depth-first traversal.  `DfsInv` is the
invariant threaded through `is_cyclic`: the recursion stack is a
duplicate-free path of edges contained in the visited set, and every
finished node (visited but off the stack) has all successors finished
and lies on no cycle. -/

def DfsInv (adj : List (String × List String)) (U : Finset String)
    (visited stack : List String) : Prop :=
  stack.Nodup ∧
  (∀ x ∈ stack, x ∈ visited) ∧
  (∀ x ∈ stack, x ∈ U) ∧
  List.Chain' (isEdge adj) stack ∧
  (∀ v ∈ visited, v ∉ stack → ∀ w, isEdge adj v w → w ∈ visited ∧ w ∉ stack) ∧
  (∀ v ∈ visited, v ∉ stack → ∀ w, isEdge adj v w → ¬ Reach adj w v)

/-- What an error result of the traversal certifies: the reported
pair is an edge of the graph that closes a cycle, and its source is
reachable from the node whose subtree was being explored. -/
def DfsPostErr (adj : List (String × List String)) (curr a b : String) : Prop :=
  isEdge adj a b ∧ Reach adj b a ∧ Reach adj curr a

/-! Concrete workflows used to instantiate the claim theorems. -/

def exAB : Workflow :=
  ⟨[("A", InvokeNextVal.str "B"), ("B", InvokeNextVal.list [])], "B"⟩

def exABSt : BuildSt := ⟨[("A", ["B"])], [("B", 1), ("A", 0)]⟩

def exDot : Workflow :=
  ⟨[("X", InvokeNextVal.list [InvokeEntry.str "a.b"]),
    ("a.b", InvokeNextVal.list [])], "X"⟩

def exDotSt : BuildSt := ⟨[("X", ["a.b"])], [("a.b", 1), ("X", 0)]⟩

def exCycle : Workflow :=
  ⟨[("R", InvokeNextVal.str "A"), ("A", InvokeNextVal.str "B"),
    ("B", InvokeNextVal.str "A")], "R"⟩

def exCycleSt : BuildSt :=
  ⟨[("R", ["A"]), ("A", ["B"]), ("B", ["A"])], [("A", 1), ("B", 1), ("R", 0)]⟩

def exNoRoot : Workflow :=
  ⟨[("A", InvokeNextVal.str "B"), ("B", InvokeNextVal.str "A")], "A"⟩

def exNoRootSt : BuildSt :=
  ⟨[("A", ["B"]), ("B", ["A"])], [("B", 1), ("A", 1)]⟩

def exKeyErr : Workflow :=
  ⟨[("A", InvokeNextVal.str "B"), ("B", InvokeNextVal.str "A"),
    ("C", InvokeNextVal.list [])], "A"⟩

def exIsolated : Workflow :=
  ⟨[("X", InvokeNextVal.list []), ("A", InvokeNextVal.str "B"),
    ("B", InvokeNextVal.list [])], "A"⟩

def exLateRank : List (String × InvokeNextVal) :=
  [("A", InvokeNextVal.str "B"), ("C", InvokeNextVal.str "B(3)"),
   ("B", InvokeNextVal.list [])]

def exRankZero : List (String × InvokeNextVal) :=
  [("B", InvokeNextVal.list []), ("A", InvokeNextVal.str "B(0)")]


/-! Basic facts about the dict models. -/

theorem lookupStr_setRank (r : List (String × Int)) (k k2 : String) (v : Int) :
    lookupStr (setRank r k v) k2 = if k = k2 then some v else lookupStr r k2 := by
  induction r with
  | nil =>
      simp only [setRank, lookupStr]
  | cons hd tl ih =>
      obtain ⟨k0, v0⟩ := hd
      by_cases h0 : k0 = k
      · subst h0
        simp only [setRank, if_pos rfl, lookupStr]
        by_cases h2 : k0 = k2
        · simp [h2]
        · simp [lookupStr, h2]
      · simp only [setRank, if_neg h0, lookupStr]
        by_cases h2 : k0 = k2
        · subst h2
          have hk : ¬ k = k0 := fun hh => h0 hh.symm
          simp [lookupStr, hk]
        · simp [lookupStr, h2, ih]

theorem lookupStr_addEdge (g : List (String × List String)) (k v a : String) :
    lookupStr (addEdge g k v) a =
      if k = a then some (adjLookup g a ++ [v]) else lookupStr g a := by
  induction g with
  | nil =>
      by_cases h : k = a <;> simp [addEdge, adjLookup, lookupStr, h]
  | cons hd tl ih =>
      obtain ⟨k0, vs⟩ := hd
      by_cases h0 : k0 = k
      · subst h0
        simp only [addEdge, if_pos rfl, lookupStr]
        by_cases h2 : k0 = a
        · simp [adjLookup, lookupStr, h2]
        · simp [adjLookup, lookupStr, h2]
      · simp only [addEdge, if_neg h0, lookupStr]
        by_cases h2 : k0 = a
        · subst h2
          have hk : ¬ k = k0 := fun hh => h0 hh.symm
          simp [adjLookup, lookupStr, hk]
        · simp [adjLookup, lookupStr, h2, ih]

theorem adjLookup_addEdge (g : List (String × List String)) (k v a : String) :
    adjLookup (addEdge g k v) a =
      if k = a then adjLookup g a ++ [v] else adjLookup g a := by
  by_cases h : k = a <;>
    simp [adjLookup, lookupStr_addEdge, h]

theorem isEdge_addEdge (g : List (String × List String)) (k v a b : String) :
    isEdge (addEdge g k v) a b ↔ isEdge g a b ∨ (k = a ∧ b = v) := by
  unfold isEdge
  rw [adjLookup_addEdge]
  by_cases h : k = a
  · subst h; simp [List.mem_append]
  · simp [h]

theorem lookupStr_mem {α : Type} (l : List (String × α)) (k : String) (v : α)
    (h : lookupStr l k = some v) : (k, v) ∈ l := by
  induction l with
  | nil => simp [lookupStr] at h
  | cons hd tl ih =>
      obtain ⟨k0, v0⟩ := hd
      simp only [lookupStr] at h
      split at h
      · next heq =>
          injection h with h
          subst h
          subst heq
          exact List.mem_cons_self _ _
      · exact List.mem_cons_of_mem _ (ih h)

theorem process_action_shape (func : String) (st st2 : BuildSt) (action : String)
    (h : process_action func st action = Except.ok st2) :
    ∃ name rank, extract_rank action = Except.ok (name, rank) ∧
      st2 = ⟨addEdge st.adj func name, setRank st.ranks name rank⟩ := by
  unfold process_action at h
  cases hx : extract_rank action with
  | error e => rw [hx] at h; exact absurd h (by simp)
  | ok p =>
      obtain ⟨name, rank⟩ := p
      rw [hx] at h
      dsimp only at h
      refine ⟨name, rank, rfl, ?_⟩
      cases hl : lookupStr st.ranks name with
      | some r =>
          rw [hl] at h
          dsimp only at h
          by_cases hr : r > 1
          · rw [if_pos hr] at h; exact absurd h (by simp)
          · rw [if_neg hr] at h
            injection h with h
            exact h.symm
      | none =>
          rw [hl] at h
          dsimp only at h
          injection h with h
          exact h.symm

theorem process_action_ranksCover (func : String) (st st2 : BuildSt) (action : String)
    (h : process_action func st action = Except.ok st2)
    (hc : RanksCover st) : RanksCover st2 := by
  obtain ⟨name, rank, _, hst⟩ := process_action_shape func st st2 action h
  subst hst
  intro a b hab
  rw [isEdge_addEdge] at hab
  simp only [lookupStr_setRank]
  rcases hab with hab | ⟨hfa, hbn⟩
  · obtain ⟨v, hv⟩ := hc a b hab
    by_cases hnb : name = b
    · exact ⟨rank, by rw [if_pos hnb]⟩
    · exact ⟨v, by rw [if_neg hnb]; exact hv⟩
  · subst hbn
    exact ⟨rank, by rw [if_pos rfl]⟩

theorem processActionList_ranksCover (func : String) :
    ∀ (l : List String) (st st2 : BuildSt),
    processActionList func st l = Except.ok st2 → RanksCover st → RanksCover st2 := by
  intro l
  induction l with
  | nil =>
      intro st st2 h hc
      simp only [processActionList] at h
      injection h with h
      exact h ▸ hc
  | cons a rest ih =>
      intro st st2 h hc
      simp only [processActionList] at h
      cases hx : process_action func st a with
      | error e => rw [hx] at h; exact absurd h (by simp)
      | ok stm =>
          rw [hx] at h
          exact ih stm st2 h (process_action_ranksCover func st stm a hx hc)

theorem processBranches_ranksCover (func : String) :
    ∀ (l : List (String × List String)) (st st2 : BuildSt),
    processBranches func st l = Except.ok st2 → RanksCover st → RanksCover st2 := by
  intro l
  induction l with
  | nil =>
      intro st st2 h hc
      simp only [processBranches] at h
      injection h with h
      exact h ▸ hc
  | cons p rest ih =>
      intro st st2 h hc
      obtain ⟨_, branch⟩ := p
      simp only [processBranches] at h
      cases hx : processActionList func st branch with
      | error e => rw [hx] at h; exact absurd h (by simp)
      | ok stm =>
          rw [hx] at h
          exact ih stm st2 h (processActionList_ranksCover func branch st stm hx hc)

theorem processInvokeEntry_ranksCover (func : String) (st st2 : BuildSt)
    (e : InvokeEntry) (h : processInvokeEntry func st e = Except.ok st2)
    (hc : RanksCover st) : RanksCover st2 := by
  cases e with
  | str s => exact process_action_ranksCover func st st2 s h hc
  | branchDict branches => exact processBranches_ranksCover func branches st st2 h hc

theorem processEntryList_ranksCover (func : String) :
    ∀ (l : List InvokeEntry) (st st2 : BuildSt),
    processEntryList func st l = Except.ok st2 → RanksCover st → RanksCover st2 := by
  intro l
  induction l with
  | nil =>
      intro st st2 h hc
      simp only [processEntryList] at h
      injection h with h
      exact h ▸ hc
  | cons e rest ih =>
      intro st st2 h hc
      simp only [processEntryList] at h
      cases hx : processInvokeEntry func st e with
      | error e2 => rw [hx] at h; exact absurd h (by simp)
      | ok stm =>
          rw [hx] at h
          exact ih stm st2 h (processInvokeEntry_ranksCover func st stm e hx hc)

theorem buildActions_ranksCover :
    ∀ (l : List (String × InvokeNextVal)) (st st2 : BuildSt),
    buildActions st l = Except.ok st2 → RanksCover st → RanksCover st2 := by
  intro l
  induction l with
  | nil =>
      intro st st2 h hc
      simp only [buildActions] at h
      injection h with h
      exact h ▸ hc
  | cons p rest ih =>
      intro st st2 h hc
      obtain ⟨func, inv⟩ := p
      simp only [buildActions] at h
      cases hx : processEntryList func st (effectiveEntries inv) with
      | error e => rw [hx] at h; exact absurd h (by simp)
      | ok stm =>
          rw [hx] at h
          exact ih stm st2 h (processEntryList_ranksCover func (effectiveEntries inv) st stm hx hc)

theorem assignDefaults_mono (b : String) (v : Int) :
    ∀ (l : List String) (ranks : List (String × Int)),
    lookupStr ranks b = some v →
    ∃ v2, lookupStr (assignDefaults ranks l) b = some v2 := by
  intro l
  induction l with
  | nil => intro ranks h; exact ⟨v, h⟩
  | cons f rest ih =>
      intro ranks h
      simp only [assignDefaults]
      cases hf : lookupStr ranks f with
      | some r => exact ih ranks h
      | none =>
          apply ih (setRank ranks f 0)
          rw [lookupStr_setRank]
          by_cases hfb : f = b
          · subst hfb; rw [h] at hf; exact absurd hf (by simp)
          · rw [if_neg hfb]; exact h

theorem build_ranksCover (al : List (String × InvokeNextVal)) (st : BuildSt)
    (h : build_adjacency_graph al = Except.ok st) :
    ∀ a b, isEdge st.adj a b → ∃ v, lookupStr st.ranks b = some v := by
  unfold build_adjacency_graph at h
  cases hx : buildActions ⟨[], []⟩ al with
  | error e => rw [hx] at h; exact absurd h (by simp)
  | ok st0 =>
      rw [hx] at h
      injection h with h
      have hc0 : RanksCover (⟨[], []⟩ : BuildSt) := by
        intro a b hab
        simp [isEdge, adjLookup, lookupStr] at hab
      have hc := buildActions_ranksCover al ⟨[], []⟩ st0 hx hc0
      intro a b hab
      have hab0 : isEdge st0.adj a b := by
        have : st.adj = st0.adj := by rw [← h]
        rw [this] at hab
        exact hab
      obtain ⟨v, hv⟩ := hc a b hab0
      have hr : st.ranks = assignDefaults st0.ranks (st0.adj.map Prod.fst) := by rw [← h]
      rw [hr]
      exact assignDefaults_mono b v _ st0.ranks hv

/-! Facts about the root scan, the reachability loop and the rank
expansion. -/

theorem reachLoop_eq (visited : List String) :
    ∀ ks, reachLoop visited ks =
      match findUnvisited visited ks with
      | some f => Except.error (Err.unreachableAction f)
      | none => Except.ok () := by
  intro ks
  induction ks with
  | nil => rfl
  | cons f rest ih =>
      simp only [reachLoop, findUnvisited]
      by_cases h : firstDotComponent f ∈ visited
      · rw [if_pos h, if_pos h, ih]
      · rw [if_neg h, if_neg h]

theorem findRoot_noRoot (ranks : List (String × Int)) :
    ∀ ks, (∀ f ∈ ks, ∃ v, lookupStr ranks f = some v ∧ v ≠ 0) →
    findRoot ranks ks = Except.error Err.noRoot := by
  intro ks
  induction ks with
  | nil => intro _; rfl
  | cons f rest ih =>
      intro h
      obtain ⟨v, hv, hvne⟩ := h f (List.mem_cons_self _ _)
      simp only [findRoot]
      rw [hv]
      dsimp only
      rw [if_neg hvne]
      exact ih (fun g hg => h g (List.mem_cons_of_mem _ hg))

theorem findRoot_first (ranks : List (String × Int)) :
    ∀ (p : List String) (g : String) (s : List String),
    (∀ f ∈ p, ∃ v, lookupStr ranks f = some v ∧ v ≠ 0) →
    lookupStr ranks g = some 0 →
    findRoot ranks (p ++ g :: s) = Except.ok g := by
  intro p
  induction p with
  | nil =>
      intro g s _ hg
      simp only [List.nil_append, findRoot]
      rw [hg]
      dsimp only
      rw [if_pos rfl]
  | cons f rest ih =>
      intro g s h hg
      obtain ⟨v, hv, hvne⟩ := h f (List.mem_cons_self _ _)
      simp only [List.cons_append, findRoot]
      rw [hv]
      dsimp only
      rw [if_neg hvne]
      exact ih g s (fun x hx => h x (List.mem_cons_of_mem _ hx)) hg

theorem findRoot_unique (ranks : List (String × Int)) (r : String) :
    ∀ ks, r ∈ ks → lookupStr ranks r = some 0 →
    (∀ f ∈ ks, ∃ v, lookupStr ranks f = some v) →
    (∀ f, lookupStr ranks f = some 0 → f = r) →
    findRoot ranks ks = Except.ok r := by
  intro ks
  induction ks with
  | nil => intro hmem; exact absurd hmem (by simp)
  | cons f rest ih =>
      intro hmem hr hall huniq
      obtain ⟨v, hv⟩ := hall f (List.mem_cons_self _ _)
      simp only [findRoot]
      rw [hv]
      dsimp only
      by_cases hv0 : v = 0
      · subst hv0
        rw [if_pos rfl, huniq f hv]
      · rw [if_neg hv0]
        apply ih
        · rcases List.mem_cons.mp hmem with hfr | hmem2
          · exfalso
            subst hfr
            rw [hr] at hv
            injection hv with hv
            exact hv0 hv.symm
          · exact hmem2
        · exact hr
        · exact fun x hx => hall x (List.mem_cons_of_mem _ hx)
        · exact huniq

theorem pyRange_length (lo hi : Int) : (pyRange lo hi).length = (hi - lo).toNat := by
  rw [pyRange, List.length_map, List.length_range]

theorem expandPre_length (ranks : List (String × Int)) :
    ∀ l, (expandPre ranks l).length =
      (l.map (fun p =>
        match lookupStr ranks p with
        | some r => if r > 1 then r.toNat else 1
        | none => 1)).sum := by
  intro l
  induction l with
  | nil => rfl
  | cons p rest ih =>
      cases hl : lookupStr ranks p with
      | some r =>
          by_cases hr : r > 1
          · simp only [expandPre, hl, if_pos hr, List.map_cons, List.sum_cons,
              List.length_append, List.length_map, pyRange_length, ih,
              add_sub_cancel_right]
          · simp only [expandPre, hl, if_neg hr, List.map_cons, List.sum_cons,
              List.length_cons, ih]
            omega
      | none =>
          simp only [expandPre, hl, List.map_cons, List.sum_cons, List.length_cons, ih]
          omega

/-! Reachability helpers. -/

theorem reach_closed (adj : List (String × List String)) (S : List String)
    (hcl : ∀ v ∈ S, ∀ w, isEdge adj v w → w ∈ S) :
    ∀ x y, Reach adj x y → x ∈ S → y ∈ S := by
  intro x y h
  induction h with
  | refl => exact fun hx => hx
  | tail _ hbc ih => exact fun hx => hcl _ (ih hx) _ hbc

theorem chain_reach_last (adj : List (String × List String)) :
    ∀ (l : List String) (x t : String), List.Chain' (isEdge adj) l →
    x ∈ l → l.getLast? = some t → Reach adj x t := by
  intro l
  induction l with
  | nil => intro x t _ hx; exact absurd hx (by simp)
  | cons a rest ih =>
      intro x t hch hx hlast
      cases rest with
      | nil =>
          simp only [List.mem_singleton] at hx
          simp only [List.getLast?_singleton, Option.some.injEq] at hlast
          subst hx
          subst hlast
          exact Relation.ReflTransGen.refl
      | cons b rest2 =>
          have hab : isEdge adj a b := (List.chain'_cons.mp hch).1
          have hch2 : List.Chain' (isEdge adj) (b :: rest2) := (List.chain'_cons.mp hch).2
          have hlast2 : (b :: rest2).getLast? = some t := by
            rw [← hlast, List.getLast?_cons_cons]
          rcases List.mem_cons.mp hx with hxa | hx2
          · subst hxa
            exact Relation.ReflTransGen.head hab (ih b t hch2 (List.mem_cons_self _ _) hlast2)
          · exact ih x t hch2 hx2 hlast2

theorem card_sdiff_concat_lt (U : Finset String) (stack : List String) (c : String)
    (hc : c ∈ U) (hcs : c ∉ stack) :
    (U \ (stack ++ [c]).toFinset).card < (U \ stack.toFinset).card := by
  have hsub : U \ (stack ++ [c]).toFinset ⊆ U \ stack.toFinset := by
    intro x hx
    rw [Finset.mem_sdiff] at hx ⊢
    refine ⟨hx.1, fun hmem => hx.2 ?_⟩
    rw [List.mem_toFinset] at hmem
    rw [List.mem_toFinset]
    exact List.mem_append_left _ hmem
  have hc2 : c ∈ U \ stack.toFinset := by
    rw [Finset.mem_sdiff, List.mem_toFinset]
    exact ⟨hc, hcs⟩
  have hc3 : c ∉ U \ (stack ++ [c]).toFinset := by
    rw [Finset.mem_sdiff, List.mem_toFinset]
    intro hx
    exact hx.2 (List.mem_append_right _ (List.mem_singleton.mpr rfl))
  exact Finset.card_lt_card ((Finset.ssubset_iff_of_subset hsub).mpr ⟨c, hc2, hc3⟩)

theorem mem_setAdd {x y : String} {s : List String} :
    y ∈ setAdd x s ↔ y = x ∨ y ∈ s := by
  unfold setAdd
  by_cases h : x ∈ s
  · rw [if_pos h]
    constructor
    · exact Or.inr
    · rintro (rfl | hy)
      · exact h
      · exact hy
  · rw [if_neg h]
    simp

theorem childLoop_spec (adj : List (String × List String)) (U : Finset String)
    (hU : ∀ a b, isEdge adj a b → b ∈ U) (fuel : Nat)
    (IH : ∀ (curr : String) (visited stack : List String),
      DfsInv adj U visited stack → curr ∈ U → curr ∉ visited →
      (∀ t, stack.getLast? = some t → isEdge adj t curr) →
      (U \ stack.toFinset).card + 1 ≤ fuel →
      is_cyclic adj fuel curr visited stack ≠ none ∧
      (∀ b v2 s2, is_cyclic adj fuel curr visited stack = some (Except.ok (b, v2, s2)) →
        b = false ∧ s2 = stack ∧ (∀ x ∈ visited, x ∈ v2) ∧ curr ∈ v2 ∧
        (∀ x ∈ v2, x ∈ visited ∨ Reach adj curr x) ∧ DfsInv adj U v2 stack) ∧
      (∀ a b, is_cyclic adj fuel curr visited stack = some (Except.error (a, b)) →
        DfsPostErr adj curr a b)) :
    ∀ (children : List String) (curr : String) (visited stack : List String),
    DfsInv adj U visited stack →
    (∀ c ∈ children, isEdge adj curr c) →
    stack.getLast? = some curr →
    (U \ stack.toFinset).card + 1 ≤ fuel →
    childLoop (is_cyclic adj fuel) curr children visited stack ≠ none ∧
    (∀ v2 s2,
      childLoop (is_cyclic adj fuel) curr children visited stack = some (Except.ok (v2, s2)) →
      s2 = stack ∧ (∀ x ∈ visited, x ∈ v2) ∧
      (∀ x ∈ v2, x ∈ visited ∨ ∃ c ∈ children, Reach adj c x) ∧
      (∀ c ∈ children, c ∈ v2 ∧ c ∉ stack) ∧
      DfsInv adj U v2 stack) ∧
    (∀ a b,
      childLoop (is_cyclic adj fuel) curr children visited stack = some (Except.error (a, b)) →
      DfsPostErr adj curr a b) := by
  intro children
  induction children with
  | nil =>
      intro curr visited stack hinv _ _ _
      refine ⟨by simp [childLoop], ?_, ?_⟩
      · intro v2 s2 h
        simp only [childLoop, Option.some.injEq, Except.ok.injEq, Prod.mk.injEq] at h
        obtain ⟨hv, hs⟩ := h
        subst hv
        subst hs
        exact ⟨rfl, fun x hx => hx, fun x hx => Or.inl hx, by simp, hinv⟩
      · intro a b h
        simp only [childLoop] at h
        exact absurd h (by simp)
  | cons child rest ih =>
      intro curr visited stack hinv hch hlastc hcard
      by_cases hv : child ∈ visited
      · by_cases hs : child ∈ stack
        · have heq : childLoop (is_cyclic adj fuel) curr (child :: rest) visited stack
              = some (Except.error (curr, child)) := by
            simp only [childLoop]
            rw [if_pos hv, if_pos hs]
          refine ⟨by rw [heq]; simp, ?_, ?_⟩
          · intro v2 s2 h
            rw [heq] at h
            exact absurd h (by simp)
          · intro a b h
            rw [heq] at h
            simp only [Option.some.injEq, Except.error.injEq, Prod.mk.injEq] at h
            obtain ⟨ha, hb⟩ := h
            subst ha
            subst hb
            have hedge : isEdge adj curr child := hch child (List.mem_cons_self _ _)
            have hreach : Reach adj child curr :=
              chain_reach_last adj stack child curr hinv.2.2.2.1 hs hlastc
            exact ⟨hedge, hreach, Relation.ReflTransGen.refl⟩
        · have heq : childLoop (is_cyclic adj fuel) curr (child :: rest) visited stack
              = childLoop (is_cyclic adj fuel) curr rest visited stack := by
            simp only [childLoop]
            rw [if_pos hv, if_neg hs]
          obtain ⟨ihn, ihok, iherr⟩ :=
            ih curr visited stack hinv (fun c hc => hch c (List.mem_cons_of_mem _ hc)) hlastc hcard
          refine ⟨by rw [heq]; exact ihn, ?_, ?_⟩
          · intro v2 s2 h
            rw [heq] at h
            obtain ⟨hs2, hmono, horig, hkids, hinv2⟩ := ihok v2 s2 h
            refine ⟨hs2, hmono, ?_, ?_, hinv2⟩
            · intro x hx
              rcases horig x hx with hx2 | ⟨c, hc, hrc⟩
              · exact Or.inl hx2
              · exact Or.inr ⟨c, List.mem_cons_of_mem _ hc, hrc⟩
            · intro c hc
              rcases List.mem_cons.mp hc with hc1 | hc2
              · subst hc1
                exact ⟨hmono _ hv, hs⟩
              · exact hkids c hc2
          · intro a b h
            rw [heq] at h
            exact iherr a b h
      · have hedge : isEdge adj curr child := hch child (List.mem_cons_self _ _)
        have hcU : child ∈ U := hU curr child hedge
        have hlaste : ∀ t, stack.getLast? = some t → isEdge adj t child := by
          intro t ht
          rw [hlastc] at ht
          injection ht with ht
          subst ht
          exact hedge
        obtain ⟨ihn0, ihok0, iherr0⟩ := IH child visited stack hinv hcU hv hlaste hcard
        cases hrec : is_cyclic adj fuel child visited stack with
        | none => exact absurd hrec ihn0
        | some res =>
            cases res with
            | error e =>
                obtain ⟨a0, b0⟩ := e
                have hpost := iherr0 a0 b0 hrec
                have heq : childLoop (is_cyclic adj fuel) curr (child :: rest) visited stack
                    = some (Except.error (a0, b0)) := by
                  simp only [childLoop]
                  rw [if_neg hv, hrec]
                refine ⟨by rw [heq]; simp, ?_, ?_⟩
                · intro v2 s2 h
                  rw [heq] at h
                  exact absurd h (by simp)
                · intro a b h
                  rw [heq] at h
                  simp only [Option.some.injEq, Except.error.injEq, Prod.mk.injEq] at h
                  obtain ⟨ha, hb⟩ := h
                  subst ha
                  subst hb
                  exact ⟨hpost.1, hpost.2.1,
                    Relation.ReflTransGen.head hedge hpost.2.2⟩
            | ok trip =>
                obtain ⟨b0, v2, s2⟩ := trip
                obtain ⟨hb0, hs2, hmono0, hchild0, horig0, hinv0⟩ := ihok0 b0 v2 s2 hrec
                subst hb0
                have hchs : child ∉ stack := fun hmem => hv (hinv.2.1 child hmem)
                have hchs2 : child ∉ s2 := by rw [hs2]; exact hchs
                have heq : childLoop (is_cyclic adj fuel) curr (child :: rest) visited stack
                    = childLoop (is_cyclic adj fuel) curr rest v2 stack := by
                  simp only [childLoop]
                  rw [if_neg hv, hrec]
                  dsimp only
                  rw [if_neg Bool.false_ne_true, if_neg hchs2, hs2]
                obtain ⟨ihn, ihok, iherr⟩ :=
                  ih curr v2 stack hinv0 (fun c hc => hch c (List.mem_cons_of_mem _ hc)) hlastc hcard
                refine ⟨by rw [heq]; exact ihn, ?_, ?_⟩
                · intro vf sf h
                  rw [heq] at h
                  obtain ⟨hsf, hmono2, horig2, hkids2, hinvf⟩ := ihok vf sf h
                  refine ⟨hsf, fun x hx => hmono2 x (hmono0 x hx), ?_, ?_, hinvf⟩
                  · intro x hx
                    rcases horig2 x hx with hx2 | ⟨c, hc, hrc⟩
                    · rcases horig0 x hx2 with hx3 | hrcx
                      · exact Or.inl hx3
                      · exact Or.inr ⟨child, List.mem_cons_self _ _, hrcx⟩
                    · exact Or.inr ⟨c, List.mem_cons_of_mem _ hc, hrc⟩
                  · intro c hc
                    rcases List.mem_cons.mp hc with hc1 | hc2
                    · subst hc1
                      exact ⟨hmono2 _ hchild0, hchs⟩
                    · exact hkids2 c hc2
                · intro a b h
                  rw [heq] at h
                  exact iherr a b h

theorem is_cyclic_spec (adj : List (String × List String)) (U : Finset String)
    (hU : ∀ a b, isEdge adj a b → b ∈ U) :
    ∀ (fuel : Nat) (curr : String) (visited stack : List String),
    DfsInv adj U visited stack → curr ∈ U → curr ∉ visited →
    (∀ t, stack.getLast? = some t → isEdge adj t curr) →
    (U \ stack.toFinset).card + 1 ≤ fuel →
    is_cyclic adj fuel curr visited stack ≠ none ∧
    (∀ b v2 s2, is_cyclic adj fuel curr visited stack = some (Except.ok (b, v2, s2)) →
      b = false ∧ s2 = stack ∧ (∀ x ∈ visited, x ∈ v2) ∧ curr ∈ v2 ∧
      (∀ x ∈ v2, x ∈ visited ∨ Reach adj curr x) ∧ DfsInv adj U v2 stack) ∧
    (∀ a b, is_cyclic adj fuel curr visited stack = some (Except.error (a, b)) →
      DfsPostErr adj curr a b) := by
  intro fuel
  induction fuel with
  | zero =>
      intro curr visited stack _ _ _ _ hcard
      exact absurd hcard (by omega)
  | succ fuel ihf =>
      intro curr visited stack hinv hcU hcv hlast hcard
      obtain ⟨hnd, hsv, hsU, hch, hclosed, hnocyc⟩ := hinv
      have hcs : curr ∉ stack := fun h => hcv (hsv curr h)
      have hcur1 : curr ∈ stack ++ [curr] :=
        List.mem_append_right _ (List.mem_singleton.mpr rfl)
      have hdis : stack.Disjoint [curr] := by
        intro a ha hb
        rw [List.mem_singleton] at hb
        subst hb
        exact hcs ha
      have hnd1 : (stack ++ [curr]).Nodup := by
        rw [List.nodup_append]
        exact ⟨hnd, List.nodup_singleton curr, hdis⟩
      have hsv1 : ∀ x ∈ stack ++ [curr], x ∈ setAdd curr visited := by
        intro x hx
        rcases List.mem_append.mp hx with hx2 | hx2
        · exact mem_setAdd.mpr (Or.inr (hsv x hx2))
        · rw [List.mem_singleton] at hx2
          subst hx2
          exact mem_setAdd.mpr (Or.inl rfl)
      have hsU1 : ∀ x ∈ stack ++ [curr], x ∈ U := by
        intro x hx
        rcases List.mem_append.mp hx with hx2 | hx2
        · exact hsU x hx2
        · rw [List.mem_singleton] at hx2
          subst hx2
          exact hcU
      have hch1 : List.Chain' (isEdge adj) (stack ++ [curr]) := by
        rw [List.chain'_append]
        refine ⟨hch, List.chain'_singleton curr, ?_⟩
        intro x hx y hy
        rw [List.head?_cons, Option.mem_def, Option.some.injEq] at hy
        subst hy
        exact hlast x (Option.mem_def.mp hx)
      have hfin1 : ∀ v ∈ setAdd curr visited, v ∉ stack ++ [curr] →
          ∀ w, isEdge adj v w → w ∈ setAdd curr visited ∧ w ∉ stack ++ [curr] := by
        intro v hvv hvs w hw
        have hvc : v ≠ curr := fun h => hvs (h ▸ hcur1)
        have hvv2 : v ∈ visited := by
          rcases mem_setAdd.mp hvv with h | h
          · exact absurd h hvc
          · exact h
        have hvs2 : v ∉ stack := fun h => hvs (List.mem_append_left _ h)
        obtain ⟨hw1, hw2⟩ := hclosed v hvv2 hvs2 w hw
        have hwc : w ≠ curr := fun h => hcv (h ▸ hw1)
        refine ⟨mem_setAdd.mpr (Or.inr hw1), ?_⟩
        intro hmem
        rcases List.mem_append.mp hmem with h | h
        · exact hw2 h
        · rw [List.mem_singleton] at h
          exact hwc h
      have hnc1 : ∀ v ∈ setAdd curr visited, v ∉ stack ++ [curr] →
          ∀ w, isEdge adj v w → ¬ Reach adj w v := by
        intro v hvv hvs w hw
        have hvc : v ≠ curr := fun h => hvs (h ▸ hcur1)
        have hvv2 : v ∈ visited := by
          rcases mem_setAdd.mp hvv with h | h
          · exact absurd h hvc
          · exact h
        have hvs2 : v ∉ stack := fun h => hvs (List.mem_append_left _ h)
        exact hnocyc v hvv2 hvs2 w hw
      have hlast1 : (stack ++ [curr]).getLast? = some curr := by
        simp
      have hcard1 : (U \ (stack ++ [curr]).toFinset).card + 1 ≤ fuel := by
        have hlt := card_sdiff_concat_lt U stack curr hcU hcs
        omega
      obtain ⟨hln, hlok, hlerr⟩ :=
        childLoop_spec adj U hU fuel ihf (adjLookup adj curr) curr
          (setAdd curr visited) (stack ++ [curr])
          ⟨hnd1, hsv1, hsU1, hch1, hfin1, hnc1⟩ (fun c hc => hc) hlast1 hcard1
      have heq : is_cyclic adj (fuel + 1) curr visited stack =
          match childLoop (is_cyclic adj fuel) curr (adjLookup adj curr)
              (setAdd curr visited) (stack ++ [curr]) with
          | none => none
          | some (Except.error e) => some (Except.error e)
          | some (Except.ok (v2, s2)) => some (Except.ok (false, v2, s2.dropLast)) := by
        simp only [is_cyclic]
        rw [if_neg hcs]
      cases hcl : childLoop (is_cyclic adj fuel) curr (adjLookup adj curr)
          (setAdd curr visited) (stack ++ [curr]) with
      | none => exact absurd hcl hln
      | some res =>
          rw [hcl] at heq
          cases res with
          | error e =>
              obtain ⟨a0, b0⟩ := e
              dsimp only at heq
              have hpost := hlerr a0 b0 hcl
              refine ⟨by rw [heq]; simp, ?_, ?_⟩
              · intro b v2 s2 h
                rw [heq] at h
                exact absurd h (by simp)
              · intro a b h
                rw [heq] at h
                simp only [Option.some.injEq, Except.error.injEq, Prod.mk.injEq] at h
                obtain ⟨ha, hb⟩ := h
                subst ha
                subst hb
                exact hpost
          | ok pr =>
              obtain ⟨v2, s2⟩ := pr
              dsimp only at heq
              obtain ⟨hs2, hmono, horig, hkids, hinv2⟩ := hlok v2 s2 hcl
              obtain ⟨hnd2, hsv2, hsU2, hch2, hclosed2, hnocyc2⟩ := hinv2
              have hdrop : s2.dropLast = stack := by
                rw [hs2]
                simp
              rw [hdrop] at heq
              have hmonov : ∀ x ∈ visited, x ∈ v2 :=
                fun x hx => hmono x (mem_setAdd.mpr (Or.inr hx))
              have hcurv2 : curr ∈ v2 := hmono curr (mem_setAdd.mpr (Or.inl rfl))
              refine ⟨by rw [heq]; simp, ?_, ?_⟩
              · intro b v2x s2x h
                rw [heq] at h
                simp only [Option.some.injEq, Except.ok.injEq, Prod.mk.injEq] at h
                obtain ⟨hb, hv2x, hs2x⟩ := h
                subst hb
                subst hv2x
                subst hs2x
                refine ⟨rfl, rfl, hmonov, hcurv2, ?_, ?_⟩
                · intro x hx
                  rcases horig x hx with hx2 | ⟨c, hc, hrc⟩
                  · rcases mem_setAdd.mp hx2 with h3 | h3
                    · subst h3
                      exact Or.inr Relation.ReflTransGen.refl
                    · exact Or.inl h3
                  · exact Or.inr (Relation.ReflTransGen.head hc hrc)
                · refine ⟨hnd, fun x hx => hmonov x (hsv x hx), hsU, hch, ?_, ?_⟩
                  · intro v hvv hvs w hw
                    by_cases hvc : v = curr
                    · have hw0 : isEdge adj curr w := hvc ▸ hw
                      obtain ⟨hw1, hw2⟩ := hkids w hw0
                      exact ⟨hw1, fun h => hw2 (List.mem_append_left _ h)⟩
                    · have hvs1 : v ∉ stack ++ [curr] := by
                        intro h
                        rcases List.mem_append.mp h with h2 | h2
                        · exact hvs h2
                        · rw [List.mem_singleton] at h2
                          exact hvc h2
                      obtain ⟨hw1, hw2⟩ := hclosed2 v hvv hvs1 w hw
                      exact ⟨hw1, fun h => hw2 (List.mem_append_left _ h)⟩
                  · intro v hvv hvs w hw hreach
                    by_cases hvc : v = curr
                    · have hw0 : isEdge adj curr w := hvc ▸ hw
                      have hreach0 : Reach adj w curr := hvc ▸ hreach
                      obtain ⟨hwv, hws1⟩ := hkids w hw0
                      have hwcur : w ≠ curr := fun h => hws1 (h ▸ hcur1)
                      rcases Relation.ReflTransGen.cases_head hreach0 with heq2 | ⟨w2, hw2, hr2⟩
                      · exact hwcur heq2
                      · have hr3 : Reach adj w2 w := Relation.ReflTransGen.tail hr2 hw0
                        exact hnocyc2 w hwv hws1 w2 hw2 hr3
                    · have hvs1 : v ∉ stack ++ [curr] := by
                        intro h
                        rcases List.mem_append.mp h with h2 | h2
                        · exact hvs h2
                        · rw [List.mem_singleton] at h2
                          exact hvc h2
                      exact hnocyc2 v hvv hvs1 w hw hreach
              · intro a b h
                rw [heq] at h
                exact absurd h (by simp)

theorem mem_adjNodes_of_isEdge (adj : List (String × List String)) (a b : String)
    (h : isEdge adj a b) : b ∈ adjNodes adj := by
  unfold isEdge adjLookup at h
  cases hl : lookupStr adj a with
  | none => rw [hl] at h; simp at h
  | some vs =>
      rw [hl] at h
      simp only [Option.getD_some] at h
      have hmem := lookupStr_mem adj a vs hl
      unfold adjNodes
      apply List.mem_append_right
      rw [List.mem_flatten]
      refine ⟨vs, ?_, h⟩
      rw [List.mem_map]
      exact ⟨(a, vs), hmem, rfl⟩

/-- Top-level specification of the traversal as `check_dag` invokes
it: with the fuel `dfsFuel` it never runs out; a clean completion
yields a visited set that is exactly the reachable, edge-closed,
cycle-free region of the root; an error names an edge closing a cycle
reachable from the root. -/
theorem is_cyclic_root (adj : List (String × List String)) (root : String) :
    is_cyclic adj (dfsFuel adj) root [] [] ≠ none ∧
    (∀ b v2 s2, is_cyclic adj (dfsFuel adj) root [] [] = some (Except.ok (b, v2, s2)) →
      b = false ∧ s2 = [] ∧ root ∈ v2 ∧ (∀ x ∈ v2, Reach adj root x) ∧
      (∀ v ∈ v2, ∀ w, isEdge adj v w → w ∈ v2) ∧
      (∀ v ∈ v2, ∀ w, isEdge adj v w → ¬ Reach adj w v)) ∧
    (∀ a b, is_cyclic adj (dfsFuel adj) root [] [] = some (Except.error (a, b)) →
      isEdge adj a b ∧ Reach adj b a ∧ Reach adj root a) := by
  have hU : ∀ a b, isEdge adj a b → b ∈ insert root (adjNodes adj).toFinset := by
    intro a b h
    exact Finset.mem_insert.mpr
      (Or.inr (List.mem_toFinset.mpr (mem_adjNodes_of_isEdge adj a b h)))
  have hinv : DfsInv adj (insert root (adjNodes adj).toFinset) [] [] := by
    refine ⟨List.nodup_nil, by simp, by simp, List.chain'_nil, by simp, by simp⟩
  have hcard : ((insert root (adjNodes adj).toFinset) \
      ([] : List String).toFinset).card + 1 ≤ dfsFuel adj := by
    have h1 : (insert root (adjNodes adj).toFinset).card ≤
        (adjNodes adj).toFinset.card + 1 := Finset.card_insert_le _ _
    have h2 : (adjNodes adj).toFinset.card ≤ (adjNodes adj).length :=
      List.toFinset_card_le _
    simp only [List.toFinset_nil, Finset.sdiff_empty]
    unfold dfsFuel
    omega
  obtain ⟨hn, hok, herr⟩ := is_cyclic_spec adj _ hU (dfsFuel adj) root [] [] hinv
    (Finset.mem_insert_self _ _) (by simp) (fun t ht => by simp at ht) hcard
  refine ⟨hn, ?_, ?_⟩
  · intro b v2 s2 h
    obtain ⟨hb, hs2, _, hroot, horig, hinv2⟩ := hok b v2 s2 h
    obtain ⟨_, _, _, _, hclosed, hnocyc⟩ := hinv2
    refine ⟨hb, hs2, hroot, ?_, ?_, ?_⟩
    · intro x hx
      rcases horig x hx with h2 | h2
      · exact absurd h2 (by simp)
      · exact h2
    · intro v hv w hw
      exact (hclosed v hv (by simp) w hw).1
    · intro v hv w hw
      exact hnocyc v hv (by simp) w hw
  · exact herr

/-- The fuel passed by `check_dag` always suffices: the embedding's
`Err.fuelExhausted` marker is unreachable. -/
theorem is_cyclic_total (adj : List (String × List String)) (root : String) :
    is_cyclic adj (dfsFuel adj) root [] [] ≠ none :=
  (is_cyclic_root adj root).1

theorem check_dag_unfold (wf : Workflow) (st : BuildSt) (root : String)
    (hmem : wf.functionInvoke ∈ wf.actionList.map Prod.fst)
    (hbuild : build_adjacency_graph wf.actionList = Except.ok st)
    (hroot : findRoot st.ranks (wf.actionList.map Prod.fst) = Except.ok root) :
    check_dag wf =
      match is_cyclic st.adj (dfsFuel st.adj) root [] [] with
      | none => Except.error Err.fuelExhausted
      | some (Except.error (a, b)) => Except.error (Err.cyclicGraph a b)
      | some (Except.ok (_, visited, _)) =>
          match reachLoop visited (wf.actionList.map Prod.fst) with
          | Except.error e => Except.error e
          | Except.ok _ =>
              Except.ok (expandPre st.ranks
                (adjLookup (predecessors_list st.adj) wf.functionInvoke)) := by
  unfold check_dag
  rw [if_pos hmem, hbuild]
  dsimp only
  rw [hroot]

theorem reachLoop_pass (visited : List String) :
    ∀ ks, (∀ f ∈ ks, firstDotComponent f ∈ visited) →
    reachLoop visited ks = Except.ok () := by
  intro ks
  induction ks with
  | nil => intro _; rfl
  | cons f rest ih =>
      intro h
      simp only [reachLoop]
      rw [if_pos (h f (List.mem_cons_self _ _))]
      exact ih (fun g hg => h g (List.mem_cons_of_mem _ hg))

/-! Helpers for concrete single-edge graphs, used to discharge the
graph-shaped hypotheses of the universal theorems at small inputs. -/

theorem singleEdge_char (x y a b : String) (h : isEdge [(x, [y])] a b) :
    a = x ∧ b = y := by
  unfold isEdge adjLookup lookupStr at h
  by_cases hx : x = a
  · rw [if_pos hx] at h
    simp only [Option.getD_some, List.mem_singleton] at h
    exact ⟨hx.symm, h⟩
  · rw [if_neg hx] at h
    simp [lookupStr] at h

theorem singleEdge_acyclic (x y : String) (hxy : y ≠ x) :
    ∀ a b, isEdge [(x, [y])] a b → ¬ Reach [(x, [y])] b a := by
  intro a b h hr
  obtain ⟨ha, hb⟩ := singleEdge_char x y a b h
  rcases Relation.ReflTransGen.cases_head hr with heq | ⟨c, hc, _⟩
  · exact hxy (by rw [← hb, heq, ha])
  · obtain ⟨hcx, _⟩ := singleEdge_char x y b c hc
    exact hxy (by rw [← hb, hcx])

theorem lookup2_zero (k1 k2 f : String) (v1 : Int) (hv1 : v1 ≠ 0)
    (h : lookupStr [(k1, v1), (k2, 0)] f = some 0) : f = k2 := by
  simp only [lookupStr] at h
  split at h
  · injection h with h
    exact absurd h hv1
  · split at h
    · next heq => exact heq.symm
    · exact absurd h (by simp)

/-- C2: as stated the claim is false — a single matched parenthesized
suffix whose content does not parse as an integer does not return
(whole string, 1); it raises `ValueError` from `int()`. -/
theorem c2_counterexample :
    extract_rank "f(x)" = Except.error Err.valueError ∧
    Except.error Err.valueError ≠
      (Except.ok (("f(x)" : String), (1 : Int)) : Except Err (String × Int)) := by
  exact ⟨rfl, by simp⟩

/-- C2 (amended): splitting on `"("` into exactly two parts with the
second ending in `")"` returns the prefix and the parsed integer when
the inner text parses, and raises `ValueError` when it does not;
every other split shape returns the whole string at rank 1. -/
theorem c2_extract_rank_cases (s : String) :
    (∀ a p1, pySplitChar '(' s.toList = [a, p1] →
      ((p1.getLast? = some ')' →
        (∀ n, pyInt (String.mk p1.dropLast) = some n →
          extract_rank s = Except.ok (String.mk a, n)) ∧
        (pyInt (String.mk p1.dropLast) = none →
          extract_rank s = Except.error Err.valueError)) ∧
      (¬ p1.getLast? = some ')' → extract_rank s = Except.ok (s, 1)))) ∧
    ((∀ a p1, ¬ pySplitChar '(' s.toList = [a, p1]) →
      extract_rank s = Except.ok (s, 1)) := by
  constructor
  · intro a p1 hsp
    have heq : extract_rank s =
        (if p1.getLast? = some ')' then
          match pyInt (String.mk p1.dropLast) with
          | some rank => Except.ok (String.mk a, rank)
          | none => Except.error Err.valueError
        else Except.ok (s, 1)) := by
      unfold extract_rank
      rw [hsp]
    constructor
    · intro hp
      rw [if_pos hp] at heq
      constructor
      · intro n hn
        rw [hn] at heq
        exact heq
      · intro hn
        rw [hn] at heq
        exact heq
    · intro hp
      rw [if_neg hp] at heq
      exact heq
  · intro hne
    unfold extract_rank
    cases hsp : pySplitChar '(' s.toList with
    | nil => rfl
    | cons a rest =>
        cases rest with
        | nil => rfl
        | cons b rest2 =>
            cases rest2 with
            | nil => exact absurd hsp (hne a b)
            | cons c rest3 => rfl

/-- C2 witness: the three behaviours at concrete inputs, via
`c2_extract_rank_cases`. -/
theorem c2_witness :
    extract_rank "f(7)" = Except.ok ("f", 7) ∧
    extract_rank "fx" = Except.ok ("fx", 1) ∧
    extract_rank "f(x)" = Except.error Err.valueError := by
  refine ⟨?_, ?_, ?_⟩
  · exact (((c2_extract_rank_cases "f(7)").1 ['f'] ['7', ')'] rfl).1 (by decide)).1 7 rfl
  · apply (c2_extract_rank_cases "fx").2
    intro a p1 h
    have h2 : [a, p1] = [['f', 'x']] := h.symm.trans rfl
    simp at h2
  · exact (((c2_extract_rank_cases "f(x)").1 ['f'] ['x', ')'] rfl).1 (by decide)).2 rfl

/-- C3: one step of the Graph Builder on a parsed reference — an
existing rank above 1 for the base name aborts with
`AmbiguousRankedPredecessor` (recording nothing); otherwise the edge
is appended and the rank entry overwritten with the new value. -/
theorem c3_process_action_spec (func : String) (st : BuildSt)
    (action name : String) (rank : Int)
    (hx : extract_rank action = Except.ok (name, rank)) :
    ((∃ r0, lookupStr st.ranks name = some r0 ∧ r0 > 1) →
      process_action func st action = Except.error Err.ambiguousRankedPredecessor) ∧
    ((∀ r0, lookupStr st.ranks name = some r0 → r0 ≤ 1) →
      process_action func st action =
        Except.ok ⟨addEdge st.adj func name, setRank st.ranks name rank⟩ ∧
      lookupStr (setRank st.ranks name rank) name = some rank) := by
  have heq : process_action func st action =
      (match lookupStr st.ranks name with
       | some r =>
           if r > 1 then Except.error Err.ambiguousRankedPredecessor
           else Except.ok ⟨addEdge st.adj func name, setRank st.ranks name rank⟩
       | none => Except.ok ⟨addEdge st.adj func name, setRank st.ranks name rank⟩) := by
    unfold process_action
    rw [hx]
  constructor
  · rintro ⟨r0, hr0, hgt⟩
    rw [hr0] at heq
    dsimp only at heq
    rw [if_pos hgt] at heq
    exact heq
  · intro hle
    refine ⟨?_, by rw [lookupStr_setRank, if_pos rfl]⟩
    cases hl : lookupStr st.ranks name with
    | some r0 =>
        rw [hl] at heq
        dsimp only at heq
        rw [if_neg (by have := hle r0 hl; omega)] at heq
        exact heq
    | none =>
        rw [hl] at heq
        dsimp only at heq
        exact heq

/-- C3 witness: both branches at concrete states, via
`c3_process_action_spec`. -/
theorem c3_witness :
    process_action "A" ⟨[], [("B", 3)]⟩ "B" =
      Except.error Err.ambiguousRankedPredecessor ∧
    process_action "A" ⟨[], [("B", 1)]⟩ "B" =
      Except.ok ⟨[("A", ["B"])], [("B", 1)]⟩ := by
  constructor
  · exact (c3_process_action_spec "A" ⟨[], [("B", 3)]⟩ "B" "B" 1 rfl).1 ⟨3, rfl, by decide⟩
  · have h := ((c3_process_action_spec "A" ⟨[], [("B", 1)]⟩ "B" "B" 1 rfl).2 ?_).1
    · exact h
    · intro r0 h0
      have h1 : lookupStr [("B", (1 : Int))] "B" = some 1 := rfl
      rw [h1] at h0
      injection h0 with h0
      omega

/-- C4: the claimed invariant fails on the code — when the rank
annotation arrives on the last reference, the builder succeeds and
leaves an action with final rank 3 and two recorded predecessors. -/
theorem c4_rank_invariant_violated :
    build_adjacency_graph exLateRank =
      Except.ok ⟨[("A", ["B"]), ("C", ["B"])], [("B", 3), ("A", 0), ("C", 0)]⟩ ∧
    lookupStr [("B", (3 : Int)), ("A", 0), ("C", 0)] "B" = some 3 ∧
    adjLookup (predecessors_list [("A", ["B"]), ("C", ["B"])]) "B" = ["A", "C"] := by
  exact ⟨rfl, rfl, rfl⟩

/-- C5: an undeclared `FunctionInvoke` target always fails with
`InvalidEntryPoint`, whatever the graph looks like — the check
precedes every other validation stage. -/
theorem c5_invalid_entry_point (wf : Workflow)
    (h : wf.functionInvoke ∉ wf.actionList.map Prod.fst) :
    check_dag wf = Except.error Err.invalidEntryPoint := by
  unfold check_dag
  rw [if_neg h]

/-- C5 witness: a cyclic graph with an undeclared target, via
`c5_invalid_entry_point`. -/
theorem c5_witness :
    check_dag ⟨[("A", InvokeNextVal.str "B"), ("B", InvokeNextVal.str "A")], "Z"⟩ =
      Except.error Err.invalidEntryPoint :=
  c5_invalid_entry_point _ (by decide)

/-- C9: an action with an empty `InvokeNext` that is never referenced
gets no rank entry, and the root scan's `ranks[func]` lookup raises
`KeyError` — an abort outside the five documented error kinds. -/
theorem c9_keyerror_unranked_action :
    check_dag exIsolated = Except.error (Err.keyError "X") := by
  rfl

/-- C10: the parser accepts non-positive ranks; `B(0)` records rank 0
for `B`, which the root scan then selects as traversal root although
`B` has an incoming edge, and a negative rank is recorded as-is. -/
theorem c10_nonpositive_rank_accepted :
    extract_rank "B(0)" = Except.ok ("B", 0) ∧
    extract_rank "B(-2)" = Except.ok ("B", -2) ∧
    build_adjacency_graph exRankZero =
      Except.ok ⟨[("A", ["B"])], [("B", 0), ("A", 0)]⟩ ∧
    findRoot [("B", (0 : Int)), ("A", 0)] (exRankZero.map Prod.fst) = Except.ok "B" ∧
    isEdge [("A", ["B"])] "A" "B" ∧
    build_adjacency_graph [("A", InvokeNextVal.str "C(-2)"), ("C", InvokeNextVal.list [])] =
      Except.ok ⟨[("A", ["C"])], [("C", -2), ("A", 0)]⟩ := by
  exact ⟨rfl, rfl, rfl, rfl, by decide, rfl⟩

/-- C6: with a declared target, a successful build and a selected
rank-0 root, any cycle reachable from that root makes validation fail
with `CyclicGraph`, and the reported pair is itself an edge closing a
cycle reachable from the root. -/
theorem c6_cyclic_graph_detected (wf : Workflow) (st : BuildSt) (r a b : String)
    (hbuild : build_adjacency_graph wf.actionList = Except.ok st)
    (hmem : wf.functionInvoke ∈ wf.actionList.map Prod.fst)
    (hroot : findRoot st.ranks (wf.actionList.map Prod.fst) = Except.ok r)
    (hra : Reach st.adj r a) (hab : isEdge st.adj a b) (hba : Reach st.adj b a) :
    ∃ a2 b2, check_dag wf = Except.error (Err.cyclicGraph a2 b2) ∧
      isEdge st.adj a2 b2 ∧ Reach st.adj b2 a2 ∧ Reach st.adj r a2 := by
  have hunf := check_dag_unfold wf st r hmem hbuild hroot
  obtain ⟨hn, hok, herr⟩ := is_cyclic_root st.adj r
  cases hcyc : is_cyclic st.adj (dfsFuel st.adj) r [] [] with
  | none => exact absurd hcyc hn
  | some res =>
      cases res with
      | ok trip =>
          obtain ⟨b0, visited, s2⟩ := trip
          obtain ⟨_, _, hrootv, _, hclosed, hnocyc⟩ := hok b0 visited s2 hcyc
          exfalso
          have hav : a ∈ visited := reach_closed st.adj visited hclosed r a hra hrootv
          exact hnocyc a hav b hab hba
      | error e =>
          obtain ⟨a2, b2⟩ := e
          obtain ⟨hedge, hba2, hra2⟩ := herr a2 b2 hcyc
          rw [hcyc] at hunf
          dsimp only at hunf
          exact ⟨a2, b2, hunf, hedge, hba2, hra2⟩

/-- C6 witness: the three-node workflow `R → A → B → A`, via
`c6_cyclic_graph_detected`. -/
theorem c6_witness : ∃ a b, check_dag exCycle = Except.error (Err.cyclicGraph a b) := by
  obtain ⟨a2, b2, hcd, _, _, _⟩ :=
    c6_cyclic_graph_detected exCycle exCycleSt "R" "A" "B" rfl (by decide) rfl
      (Relation.ReflTransGen.single (by decide)) (by decide)
      (Relation.ReflTransGen.single (by decide))
  exact ⟨a2, b2, hcd⟩

/-- C7 (amended): once the traversal from the selected root completes
without error, validation fails with `UnreachableAction` naming the
first declared action (in declaration order) whose name's part before
the first dot is not in the visited set, and passes — returning the
resolved predecessor list — when every declared action's pre-dot part
was visited. -/
theorem c7_reachability_check (wf : Workflow) (st : BuildSt) (r : String)
    (b0 : Bool) (visited s2 : List String)
    (hmem : wf.functionInvoke ∈ wf.actionList.map Prod.fst)
    (hbuild : build_adjacency_graph wf.actionList = Except.ok st)
    (hroot : findRoot st.ranks (wf.actionList.map Prod.fst) = Except.ok r)
    (hdfs : is_cyclic st.adj (dfsFuel st.adj) r [] [] =
      some (Except.ok (b0, visited, s2))) :
    (∀ f, findUnvisited visited (wf.actionList.map Prod.fst) = some f →
      check_dag wf = Except.error (Err.unreachableAction f)) ∧
    (findUnvisited visited (wf.actionList.map Prod.fst) = none →
      check_dag wf = Except.ok (expandPre st.ranks
        (adjLookup (predecessors_list st.adj) wf.functionInvoke))) := by
  have hunf := check_dag_unfold wf st r hmem hbuild hroot
  rw [hdfs] at hunf
  dsimp only at hunf
  rw [reachLoop_eq] at hunf
  constructor
  · intro f hf
    rw [hf] at hunf
    dsimp only at hunf
    exact hunf
  · intro hf
    rw [hf] at hunf
    dsimp only at hunf
    exact hunf

/-- C7 counterexample: in `X → a.b` every declared action is visited
by the traversal, yet the reachability check fails with
`UnreachableAction a.b`, because the code tests `func.split(".")[0]`
rather than the declared name. -/
theorem c7_counterexample :
    build_adjacency_graph exDot.actionList = Except.ok exDotSt ∧
    is_cyclic exDotSt.adj (dfsFuel exDotSt.adj) "X" [] [] =
      some (Except.ok (false, ["a.b", "X"], [])) ∧
    (∀ f ∈ exDot.actionList.map Prod.fst, f ∈ ["a.b", "X"]) ∧
    check_dag exDot = Except.error (Err.unreachableAction "a.b") := by
  exact ⟨rfl, rfl, by decide, rfl⟩

/-- C7 witness: the amended reachability check at `exDot`, via
`c7_reachability_check`. -/
theorem c7_witness : check_dag exDot = Except.error (Err.unreachableAction "a.b") :=
  (c7_reachability_check exDot exDotSt "X" false ["a.b", "X"] []
    (by decide) rfl rfl rfl).1 "a.b" rfl

/-- C8 (amended): the root scan takes the first declared action whose
rank entry is 0, provided every earlier action has a (nonzero) rank
entry; and when every declared action has a nonzero rank entry,
validation fails with `NoRoot`.  (A missing entry instead raises
`KeyError`, see C9.) -/
theorem c8_root_selection (wf : Workflow) (st : BuildSt)
    (hbuild : build_adjacency_graph wf.actionList = Except.ok st)
    (hmem : wf.functionInvoke ∈ wf.actionList.map Prod.fst) :
    ((∀ f ∈ wf.actionList.map Prod.fst,
        ∃ v, lookupStr st.ranks f = some v ∧ v ≠ 0) →
      check_dag wf = Except.error Err.noRoot) ∧
    (∀ p g s, wf.actionList.map Prod.fst = p ++ g :: s →
      (∀ f ∈ p, ∃ v, lookupStr st.ranks f = some v ∧ v ≠ 0) →
      lookupStr st.ranks g = some 0 →
      findRoot st.ranks (wf.actionList.map Prod.fst) = Except.ok g) := by
  constructor
  · intro h
    have hnr := findRoot_noRoot st.ranks _ h
    unfold check_dag
    rw [if_pos hmem, hbuild]
    dsimp only
    rw [hnr]
  · intro p g s hsplit hp hg
    rw [hsplit]
    exact findRoot_first st.ranks p g s hp hg

/-- C8 counterexample: in `A ↔ B` with isolated `C` no action has a
rank-table entry 0, yet validation aborts with `KeyError "C"` rather
than `NoRoot`. -/
theorem c8_counterexample :
    build_adjacency_graph exKeyErr.actionList = Except.ok exNoRootSt ∧
    (∀ f ∈ exKeyErr.actionList.map Prod.fst,
      lookupStr exNoRootSt.ranks f ≠ some 0) ∧
    check_dag exKeyErr = Except.error (Err.keyError "C") ∧
    Err.keyError "C" ≠ Err.noRoot := by
  refine ⟨rfl, ?_, rfl, by simp⟩
  intro f hf
  have hf2 : f = "A" ∨ f = "B" ∨ f = "C" := by
    simpa [exKeyErr] using hf
  rcases hf2 with rfl | rfl | rfl <;> decide

/-- C8 witness: the `NoRoot` exit on the pure two-cycle `A ↔ B`, and
the first-rank-0 selection on `A → B`, via `c8_root_selection`. -/
theorem c8_witness :
    check_dag exNoRoot = Except.error Err.noRoot ∧
    findRoot exABSt.ranks (exAB.actionList.map Prod.fst) = Except.ok "A" := by
  constructor
  · apply (c8_root_selection exNoRoot exNoRootSt rfl (by decide)).1
    intro f hf
    have hf2 : f = "A" ∨ f = "B" := by
      simpa [exNoRoot] using hf
    rcases hf2 with rfl | rfl
    · exact ⟨1, rfl, by decide⟩
    · exact ⟨1, rfl, by decide⟩
  · exact (c8_root_selection exAB exABSt rfl (by decide)).2 [] "A" ["B"] rfl
      (by simp) rfl

/-- C1 (amended): for a workflow whose target is a declared action,
whose declared names contain no dot (they equal their own first
dot-component), whose graph builds successfully, is acyclic, has a
unique rank-0 entry `r` among the declared actions, and has every
declared action reachable from `r`, validation succeeds and returns
the target's predecessors in Predecessor Map order with every rank-r
(r > 1) predecessor expanded to `p.1 ... p.r`; the result's length is
the sum over the immediate predecessors of (rank, or 1 if at most 1). -/
theorem c1_acyclic_single_root_resolution (wf : Workflow) (st : BuildSt) (r : String)
    (hbuild : build_adjacency_graph wf.actionList = Except.ok st)
    (hmem : wf.functionInvoke ∈ wf.actionList.map Prod.fst)
    (hnodot : ∀ f ∈ wf.actionList.map Prod.fst, firstDotComponent f = f)
    (hrmem : r ∈ wf.actionList.map Prod.fst)
    (hr0 : lookupStr st.ranks r = some 0)
    (huniq : ∀ f, lookupStr st.ranks f = some 0 → f = r)
    (hacyc : ∀ a b, isEdge st.adj a b → ¬ Reach st.adj b a)
    (hreach : ∀ f ∈ wf.actionList.map Prod.fst, Reach st.adj r f) :
    check_dag wf = Except.ok (expandPre st.ranks
      (adjLookup (predecessors_list st.adj) wf.functionInvoke)) ∧
    (expandPre st.ranks (adjLookup (predecessors_list st.adj) wf.functionInvoke)).length =
      ((adjLookup (predecessors_list st.adj) wf.functionInvoke).map (fun p =>
        match lookupStr st.ranks p with
        | some rk => if rk > 1 then rk.toNat else 1
        | none => 1)).sum := by
  have hcover := build_ranksCover wf.actionList st hbuild
  have hall : ∀ f ∈ wf.actionList.map Prod.fst, ∃ v, lookupStr st.ranks f = some v := by
    intro f hf
    rcases Relation.ReflTransGen.cases_tail (hreach f hf) with hfr | ⟨c, _, hcf⟩
    · exact ⟨0, by rw [hfr]; exact hr0⟩
    · exact hcover c f hcf
  have hroot : findRoot st.ranks (wf.actionList.map Prod.fst) = Except.ok r :=
    findRoot_unique st.ranks r _ hrmem hr0 hall huniq
  have hunf := check_dag_unfold wf st r hmem hbuild hroot
  obtain ⟨hn, hok, herr⟩ := is_cyclic_root st.adj r
  cases hcyc : is_cyclic st.adj (dfsFuel st.adj) r [] [] with
  | none => exact absurd hcyc hn
  | some res =>
      cases res with
      | error e =>
          obtain ⟨a, b⟩ := e
          obtain ⟨hedge, hba, _⟩ := herr a b hcyc
          exact absurd hba (hacyc a b hedge)
      | ok trip =>
          obtain ⟨b0, visited, s2⟩ := trip
          obtain ⟨_, _, hrootv, _, hclosed, _⟩ := hok b0 visited s2 hcyc
          have hvis : ∀ f ∈ wf.actionList.map Prod.fst, firstDotComponent f ∈ visited := by
            intro f hf
            rw [hnodot f hf]
            exact reach_closed st.adj visited hclosed r f (hreach f hf) hrootv
          have hrl := reachLoop_pass visited (wf.actionList.map Prod.fst) hvis
          rw [hcyc] at hunf
          dsimp only at hunf
          rw [hrl] at hunf
          dsimp only at hunf
          exact ⟨hunf, expandPre_length st.ranks _⟩

/-- C1 counterexample: `X → a.b` with target `X` builds, is acyclic,
has the unique rank-0 root `X`, and every declared action reachable
from it, yet validation fails with `UnreachableAction a.b` — the
claim as stated does not hold because the reachability check tests
only the part of each name before its first dot. -/
theorem c1_counterexample :
    build_adjacency_graph exDot.actionList = Except.ok exDotSt ∧
    exDot.functionInvoke ∈ exDot.actionList.map Prod.fst ∧
    lookupStr exDotSt.ranks "X" = some 0 ∧
    (∀ f, lookupStr exDotSt.ranks f = some 0 → f = "X") ∧
    (∀ a b, isEdge exDotSt.adj a b → ¬ Reach exDotSt.adj b a) ∧
    (∀ f ∈ exDot.actionList.map Prod.fst, Reach exDotSt.adj "X" f) ∧
    check_dag exDot = Except.error (Err.unreachableAction "a.b") := by
  refine ⟨rfl, by decide, rfl,
    fun f h => lookup2_zero "a.b" "X" f 1 (by decide) h,
    singleEdge_acyclic "X" "a.b" (by decide), ?_, rfl⟩
  intro f hf
  have hf2 : f = "X" ∨ f = "a.b" := by
    simpa [exDot] using hf
  rcases hf2 with rfl | rfl
  · exact Relation.ReflTransGen.refl
  · exact Relation.ReflTransGen.single (by decide)

/-- C1 witness: the workflow `A → B` with target `B` resolves to
`["A"]`, via `c1_acyclic_single_root_resolution`. -/
theorem c1_witness : check_dag exAB = Except.ok ["A"] := by
  have hreach : ∀ f ∈ exAB.actionList.map Prod.fst, Reach exABSt.adj "A" f := by
    intro f hf
    have hf2 : f = "A" ∨ f = "B" := by
      simpa [exAB] using hf
    rcases hf2 with rfl | rfl
    · exact Relation.ReflTransGen.refl
    · exact Relation.ReflTransGen.single (by decide)
  have h := (c1_acyclic_single_root_resolution exAB exABSt "A" rfl (by decide)
    (by decide) (by decide) rfl
    (fun f h => lookup2_zero "B" "A" f 1 (by decide) h)
    (singleEdge_acyclic "A" "B" (by decide)) hreach).1
  exact h.trans rfl
